import Mathlib

/-!
Shallow embedding of the genetic-algorithm TSP solver in `src/tsp.c` and
verification of the specification's claims about it.

Conventions of the embedding:
* C `int` arrays become Lean `List`s; genes and route labels are nonnegative
  throughout the program, so they are modeled as `Nat`; fitness values and
  tour entries (which can be `-1`) are modeled as `Int`.
* An in-bounds array read `a[i]` becomes `a.getD i 0`; an in-bounds write
  becomes `a.set i v`.  Where a claim is about index safety, a second,
  bounds-checked (`Option`-returning) version of the function is provided
  next to the total one, performing the same accesses.
* The distance oracle (`dist`, a rounded Euclidean distance over `double`
  coordinates) and the wall-clock source `cpu_time()` are external
  collaborators per the specification; they are taken as parameters
  (`D : Int → Int → Int`, `t : Nat → Nat`).
* `rand()` is modeled as an injected stream `rng : Nat → Nat` read at an
  explicit position, consumed in exactly the order the C program draws.
-/

namespace Tsp

/-- POPULATION constant of tsp.c (line 42). -/
def POPULATION : Nat := 20

/-! ### copy_array (tsp.c:374-390) and the shifting inner loop -/

/-- The inner loop `for (i = j; i < n-1; i++) a[i] = a[i+1]` of `copy_array`,
with the iteration count made explicit (the loop runs `a.length - (i+1)` times
and each step preserves the length, so the count is exact).  Each body access
is in bounds thanks to the loop guard `i < n - 1`. -/
def shiftGo : Nat → List Nat → Nat → List Nat
  | 0, a, _ => a
  | fuel + 1, a, i => shiftGo fuel (a.set i (a.getD (i + 1) 0)) (i + 1)

/-- The shifting loop of `copy_array`, starting at index `i`. -/
def shiftLoop (a : List Nat) (i : Nat) : List Nat :=
  shiftGo (a.length - (i + 1)) a i

/-- copy_array(a, n, j) (tsp.c:374-390): the scan `for (i = 0; i < n; i++)`
fires its body exactly when it reaches `i = j - 1`, which happens iff
`1 ≤ j ≤ n`; the body does `a[j-1] = a[j]`, shifts `a[i] = a[i+1]` for
`i = j .. n-2`, and finally sets `a[n-1] = 0`.  The first assignment reads
index `j`, which for `j = n` is one past the end of the array; as in the C
program that value is immediately overwritten by `a[n-1] = 0`, so the total
version models the read with `getD`'s default.  `copy_array_checked` below
performs the same accesses with the read bounds-checked. -/
def copy_array (a : List Nat) (k : Nat) : List Nat :=
  if 1 ≤ k ∧ k ≤ a.length then
    (shiftLoop (a.set (k - 1) (a.getD k 0)) k).set (a.length - 1) 0
  else a

/-- Bounds-checked variant of `copy_array`: the read `a[j]` in
`a[j-1] = a[j]` is the only access not forced in bounds by the loop guards,
so it is performed through `List.get?`. -/
def copy_array_checked (a : List Nat) (k : Nat) : Option (List Nat) :=
  if 1 ≤ k ∧ k ≤ a.length then
    (a.get? k).map (fun v => (shiftLoop (a.set (k - 1) v) k).set (a.length - 1) 0)
  else some a

/-! ### order_representation (tsp.c:408-429) -/

/-- One row of `order_representation`: `route[i][j] = order_list[k-1]` with
`k = a[i][j]`, then `copy_array(order_list, n, k)`. -/
def order_rep_row : List Nat → List Nat → List Nat
  | [], _ => []
  | k :: gs, ol => ol.getD (k - 1) 0 :: order_rep_row gs (copy_array ol k)

/-- order_representation (tsp.c:408-429): decodes every row of the population
against a fresh working list `order_list[j] = j + 1`. -/
def order_representation (n : Nat) (a : List (List Nat)) : List (List Nat) :=
  a.map (fun row => order_rep_row row ((List.range n).map (fun j => j + 1)))

/-- Bounds-checked variant of `order_rep_row`: the read `order_list[k-1]`
and every access of `copy_array` are checked. -/
def order_rep_row_checked : List Nat → List Nat → Option (List Nat)
  | [], _ => some []
  | k :: gs, ol => do
      let v ← ol.get? (k - 1)
      let ol' ← copy_array_checked ol k
      let rest ← order_rep_row_checked gs ol'
      some (v :: rest)

/-- Modelled from the spec: `encode(route) -> chromosome` is described in
section 4.1 but absent from src/tsp.c (only the decoder
`order_representation` is implemented).  Per the spec's words: for each
position, `k` is the current rank (1-indexed) of `route[j]` within the
still-remaining labels, and that label is then removed. -/
def encode : List Nat → List Nat → List Nat
  | _, [] => []
  | rem, x :: xs => (rem.indexOf x + 1) :: encode (rem.erase x) xs

/-! ### create_matrix (tsp.c:361-372) -/

/-- create_matrix (tsp.c:361-372): `a[i][j] = rand() % (n - j) + 1`, drawing
from the random stream in row-major order. -/
def create_matrix (n : Nat) (rng : Nat → Nat) : List (List Nat) :=
  (List.range POPULATION).map (fun i =>
    (List.range n).map (fun j => rng (i * n + j) % (n - j) + 1))

/-! ### min (tsp.c:392-406) -/

/-- The fold of `min` over the array: `if (min > a[i]) min = a[i]`. -/
def minLoop (l : List Int) (m : Int) : Int :=
  l.foldl (fun m x => if m > x then x else m) m

/-- min (tsp.c:392-406): initialized with `a[POPULATION-1]`, then folded over
the whole array. -/
def min (a : List Int) : Int :=
  minLoop a (a.getD (POPULATION - 1) 0)

/-! ### ranking_selection (tsp.c:452-480) -/

/-- The scan `for (j = 0; j < POPULATION; j++) if (d[j] == m) idx = j;`
restricted to the first `n` indices.  `idx` is uninitialized in the C source;
it is always assigned because the scan is only reached with `m` the attained
minimum of `d`, so the initial value `0` is never returned unassigned. -/
def idxScan (d : List Int) (m : Int) (n : Nat) : Nat :=
  (List.range n).foldl (fun idx j => if d.getD j 0 = m then j else idx) 0

/-- The index-selection trace of `ranking_selection`: each round takes the
minimum `m` of the working fitness array `d`, the last index holding it, and
strikes that entry with the constant `1000000` (tsp.c:477). -/
def selectIdxLoop : Nat → List Int → List Nat
  | 0, _ => []
  | fuel + 1, d =>
      let m := min d
      let idx := idxScan d m POPULATION
      idx :: selectIdxLoop fuel (d.set idx 1000000)

/-- ranking_selection (tsp.c:452-480): `c[i][j] = b[idx][j]` copies whole
rows, and the choice of `idx` never reads `b`, so the output is the row
lookup mapped over the index trace. -/
def ranking_selection (a : List Int) (b : List (List Nat)) : List (List Nat) :=
  (selectIdxLoop POPULATION a).map (fun idx => b.getD idx [])

/-! ### tow_point_crossover (tsp.c:483-516) -/

/-- The cut point of `tow_point_crossover` (tsp.c:487-493):
`n/2 - 1` for even `n`, `(n+1)/2 - 1` for odd `n`. -/
def cutPoint (n : Nat) : Nat :=
  if n % 2 = 0 then n / 2 - 1 else (n + 1) / 2 - 1

/-- One child of a crossover pair: its own parent `x` on
`[0, p/2]` and `(p + p/2, n)`, the other parent `y` on `(p/2, p + p/2]`
(the three j-loops of tsp.c:497-513). -/
def cross_child (n p : Nat) (x y : List Nat) : List Nat :=
  (List.range n).map (fun j =>
    if j < p / 2 + 1 then x.getD j 0
    else if j < p + p / 2 + 1 then y.getD j 0
    else x.getD j 0)

/-- The pair loop `for (i = 0; i < POPULATION; i = i+2)` of
`tow_point_crossover`: rows are consumed two at a time (POPULATION is even,
so the one-row leftover case is unreachable on full populations). -/
def crossRows (n p : Nat) : List (List Nat) → List (List Nat)
  | x :: y :: rest => cross_child n p x y :: cross_child n p y x :: crossRows n p rest
  | l => l

/-- tow_point_crossover (tsp.c:483-516): every entry of the destination `a`
is written from the source `b`, so it is a function of `b` alone. -/
def tow_point_crossover (n : Nat) (b : List (List Nat)) : List (List Nat) :=
  crossRows n (cutPoint n) b

/-! ### mutation (tsp.c:519-548) -/

/-- The mutation point (tsp.c:523-529): `n/2` for even `n`, `(n+1)/2` for
odd `n` (i.e. the ceiling of `n/2`). -/
def mut_point (n : Nat) : Nat :=
  if n % 2 = 0 then n / 2 else (n + 1) / 2

/-- The sequence of (column, value) writes mutation performs on row `r`:
head regime (`r > POPULATION/2`): `a[r][i] = 1` for `i < point`, then
`a[r][point] = 2`; tail regime: `a[r][i] = 1` for `point ≤ i < n - 10`,
then `a[r][point+10] = 2`. -/
def mutation_writes (n r : Nat) : List (Nat × Nat) :=
  if r > POPULATION / 2 then
    ((List.range (mut_point n)).map (fun i => (i, 1))) ++ [(mut_point n, 2)]
  else
    ((List.range' (mut_point n) (n - 10 - mut_point n)).map (fun i => (i, 1)))
      ++ [(mut_point n + 10, 2)]

/-- mutation (tsp.c:519-548) acting on the chosen row `r` (the draw
`r = rand() % (POPULATION-1) + 1` is performed by the caller in this
embedding); writes whose column falls outside the row are dropped by
`List.set`. -/
def mutation (n r : Nat) (pop : List (List Nat)) : List (List Nat) :=
  pop.set r ((mutation_writes n r).foldl (fun row w => row.set w.1 w.2) (pop.getD r []))

/-- Bounds-checked variant of `mutation`: `none` iff some write targets a
column outside the declared row bound `[0, n)` of the `int a[][n]` matrix
(the row index `r` itself always lies in `[1, POPULATION-1]`). -/
def mutation_checked (n r : Nat) (pop : List (List Nat)) : Option (List (List Nat)) :=
  if (mutation_writes n r).all (fun w => decide (w.1 < n)) then
    some (mutation n r pop)
  else none

/-! ### rand_crossover (tsp.c:551-561) -/

/-- rand_crossover (tsp.c:551-561): with `p = 3`, copies row `p` verbatim
onto row `POPULATION - p`. -/
def rand_crossover (pop : List (List Nat)) : List (List Nat) :=
  pop.set (POPULATION - 3) (pop.getD 3 [])

/-! ### compute_cost (tsp.c:295-305), evaluate_route (tsp.c:432-450) -/

/-- The edge-summing loop of `compute_cost`, with the iteration bound `n - 1`
made explicit; returns the final loop index `k` together with the
accumulated cost (the closing edge uses `tour[k]`). -/
def costGo (D : Int → Int → Int) (tour : List Int) : Nat → Nat → Int → Nat × Int
  | 0, k, acc => (k, acc)
  | fuel + 1, k, acc =>
      if tour.getD (k + 1) 0 < 0 then (k, acc)
      else costGo D tour fuel (k + 1) (acc + D (tour.getD k 0) (tour.getD (k + 1) 0))

/-- compute_cost (tsp.c:295-305) over the abstract distance oracle `D`
(the spec treats `dist` as an external collaborator). -/
def compute_cost (D : Int → Int → Int) (n : Nat) (tour : List Int) : Int :=
  let r := costGo D tour (n - 1) 0 0
  r.2 + D (tour.getD r.1 0) (tour.getD 0 0)

/-- evaluate_route (tsp.c:432-450): each decoded row is shifted to 0-indexed
node ids (`b[j] = route[i][j] - 1`) and scored by `compute_cost`. -/
def evaluate_route (n : Nat) (D : Int → Int → Int) (route : List (List Nat)) : List Int :=
  route.map (fun r => compute_cost D n (r.map (fun x => (x : Int) - 1)))

/-! ### is_feasible (tsp.c:309-333) -/

/-- The scanning loop of `is_feasible`: stops at a negative entry (flag kept),
fails on an entry `≥ n` or an already-visited node, otherwise marks the node
and counts it. -/
def feasLoop (n : Nat) : List Int → List Bool → Nat → Bool × Nat
  | [], _, num => (true, num)
  | x :: rest, visited, num =>
      if x < 0 then (true, num)
      else if n ≤ x.toNat then (false, num)
      else if visited.getD x.toNat false then (false, num)
      else feasLoop n rest (visited.set x.toNat true) (num + 1)

/-- is_feasible (tsp.c:309-333): the scan over `tour[0..n-1]` followed by the
check `num_visited >= min_node_num`. -/
def is_feasible (n mnn : Nat) (tour : List Int) : Bool :=
  let r := feasLoop n (tour.take n) (List.replicate n false) 0
  r.1 && decide (mnn ≤ r.2)

/-! ### genetic_algorithm (tsp.c:564-613) -/

/-- The state threaded through the generational loop: the two population
buffers and the read position in the random stream. -/
structure GAState where
  gene : List (List Nat)
  gene_tmp : List (List Nat)
  rpos : Nat
deriving DecidableEq, Repr

/-- One iteration of the while-loop body of `genetic_algorithm`
(tsp.c:584-605): decode, evaluate, rank into `gene_tmp`, draw `r1`/`r2`,
optionally reinject (`r1 == 7`), cross back into `gene`, optionally mutate
(`r1 == r2`, drawing mutation's own `r = rand() % (POPULATION-1) + 1`). -/
def genStep (n : Nat) (D : Int → Int → Int) (rng : Nat → Nat) (s : GAState) : GAState :=
  let route := order_representation n s.gene
  let fitness := evaluate_route n D route
  let gt0 := ranking_selection fitness s.gene
  let r1 := rng s.rpos % 20
  let r2 := rng (s.rpos + 1) % 20
  let gt1 := if r1 = 7 then rand_crossover gt0 else gt0
  let g1 := tow_point_crossover n gt1
  if r1 = r2 then
    { gene := mutation n (rng (s.rpos + 2) % (POPULATION - 1) + 1) g1,
      gene_tmp := gt1, rpos := s.rpos + 3 }
  else
    { gene := g1, gene_tmp := gt1, rpos := s.rpos + 2 }

/-- The while-loop `while (cpu_time() - starttime < timelim)` of
`genetic_algorithm`, with `t k` the elapsed time observed at the `k`-th
check.  The iteration budget is made explicit: for any strictly monotone
integer time source the guard fails after at most `timelim` checks, and
`gaGo_fuel_irrel` below shows the budget choice does not affect the result. -/
def gaGo (n : Nat) (D : Int → Int → Int) (rng : Nat → Nat) (t : Nat → Nat)
    (timelim : Nat) : Nat → Nat → GAState → GAState
  | 0, _, s => s
  | fuel + 1, k, s =>
      if t k < timelim then gaGo n D rng t timelim fuel (k + 1) (genStep n D rng s)
      else s

/-- genetic_algorithm (tsp.c:564-613): builds the random initial population,
pins row 0 to the identity chromosome (all genes 1), runs the generational
loop, and finally emits the decode of `gene_tmp`'s first row shifted to
0-indexed node ids (`bestsol[i] = route[0][i] - 1`, tsp.c:607-611).
`gene_tmp0` is the initial content of the `gene_tmp` buffer, which the C
program leaves uninitialized; the `bestsol = identity` initialisation of
tsp.c:581-583 is dead, being unconditionally overwritten after the loop. -/
def genetic_algorithm (n : Nat) (D : Int → Int → Int) (rng : Nat → Nat)
    (t : Nat → Nat) (timelim : Nat) (gene_tmp0 : List (List Nat)) : List Int :=
  let gene0 := (create_matrix n rng).set 0 (List.replicate n 1)
  let s0 : GAState := { gene := gene0, gene_tmp := gene_tmp0, rpos := POPULATION * n }
  let sF := gaGo n D rng t timelim timelim 0 s0
  ((order_representation n sF.gene_tmp).getD 0 []).map (fun x => (x : Int) - 1)

/-! ## Basic access lemmas -/

theorem getD_set_self {α} (l : List α) (i : Nat) (v d : α) (h : i < l.length) :
    (l.set i v).getD i d = v := by
  rw [List.getD_eq_getElem _ _ (by simpa using h)]
  exact List.getElem_set_self _

theorem getD_set_ne {α} (l : List α) (i : Nat) (v d : α) (j : Nat) (h : j ≠ i) :
    (l.set i v).getD j d = l.getD j d := by
  by_cases hj : j < l.length
  · rw [List.getD_eq_getElem _ _ (by simpa using hj), List.getD_eq_getElem _ _ hj]
    simp only [List.getElem_set]
    rw [if_neg (by omega)]
  · rw [List.getD_eq_default _ _ (by simpa using le_of_not_lt hj),
      List.getD_eq_default _ _ (le_of_not_lt hj)]

/-! ## copy_array: length preservation and pointwise characterization -/

theorem shiftGo_length (fuel : Nat) : ∀ (a : List Nat) (i : Nat),
    (shiftGo fuel a i).length = a.length := by
  induction fuel with
  | zero => intro a i; rfl
  | succ fuel ih => intro a i; rw [shiftGo, ih, List.length_set]

theorem shiftGo_getD (fuel : Nat) : ∀ (a : List Nat) (i : Nat),
    a.length = i + 1 + fuel → ∀ j,
    (shiftGo fuel a i).getD j 0 =
      if i ≤ j ∧ j + 1 < a.length then a.getD (j + 1) 0 else a.getD j 0 := by
  induction fuel with
  | zero =>
    intro a i h j
    rw [shiftGo]
    have : ¬ (i ≤ j ∧ j + 1 < a.length) := by omega
    rw [if_neg this]
  | succ fuel ih =>
    intro a i h j
    rw [shiftGo, ih (a.set i (a.getD (i + 1) 0)) (i + 1) (by rw [List.length_set]; omega) j]
    rw [List.length_set]
    rcases Nat.lt_trichotomy j i with hj | hj | hj
    · rw [if_neg (by omega), if_neg (by omega), getD_set_ne _ _ _ _ _ (by omega)]
    · subst hj
      rw [if_neg (by omega), if_pos (by omega), getD_set_self _ _ _ _ (by omega)]
    · by_cases hj2 : j + 1 < a.length
      · rw [if_pos (by omega), if_pos (by omega), getD_set_ne _ _ _ _ _ (by omega)]
      · rw [if_neg (by omega), if_neg (by omega), getD_set_ne _ _ _ _ _ (by omega)]

theorem shiftLoop_length (a : List Nat) (i : Nat) :
    (shiftLoop a i).length = a.length := shiftGo_length _ a i

theorem shiftLoop_getD (a : List Nat) (i j : Nat) :
    (shiftLoop a i).getD j 0 =
      if i ≤ j ∧ j + 1 < a.length then a.getD (j + 1) 0 else a.getD j 0 := by
  by_cases h : i + 1 ≤ a.length
  · exact shiftGo_getD _ a i (by omega) j
  · rw [shiftLoop, (by omega : a.length - (i + 1) = 0), shiftGo,
      if_neg (by omega)]

theorem copy_array_length (a : List Nat) (k : Nat) :
    (copy_array a k).length = a.length := by
  rw [copy_array]
  split
  · rw [List.length_set, shiftLoop_length, List.length_set]
  · rfl

theorem copy_array_getD (a : List Nat) (k : Nat) (h1 : 1 ≤ k) (h2 : k ≤ a.length) (j : Nat) :
    (copy_array a k).getD j 0 =
      if k - 1 ≤ j ∧ j + 1 < a.length then a.getD (j + 1) 0
      else if j + 1 = a.length then 0
      else a.getD j 0 := by
  rw [copy_array, if_pos ⟨h1, h2⟩]
  have hlen : (shiftLoop (a.set (k - 1) (a.getD k 0)) k).length = a.length := by
    rw [shiftLoop_length, List.length_set]
  by_cases hj : j + 1 = a.length
  · have hc : ¬ (k - 1 ≤ j ∧ j + 1 < a.length) := by omega
    have hidx : a.length - 1 = j := by omega
    rw [if_neg hc, if_pos hj, hidx, getD_set_self _ _ _ _ (by omega)]
  · rw [getD_set_ne _ _ _ _ _ (by omega), if_neg hj,
      shiftLoop_getD, List.length_set]
    rcases Nat.lt_trichotomy j (k - 1) with hc | hc | hc
    · rw [if_neg (by omega), if_neg (by omega), getD_set_ne _ _ _ _ _ (by omega)]
    · subst hc
      by_cases hj2 : k - 1 + 1 < a.length
      · rw [if_neg (by omega), if_pos (by omega), getD_set_self _ _ _ _ (by omega)]
        have hk : k - 1 + 1 = k := by omega
        rw [hk]
      · -- impossible: j = k - 1 with j + 1 > a.length contradicts k ≤ a.length
        omega
    · by_cases hj2 : j + 1 < a.length
      · rw [if_pos (by omega), if_pos (by omega), getD_set_ne _ _ _ _ _ (by omega)]
      · rw [if_neg (by omega), if_neg (by omega), getD_set_ne _ _ _ _ _ (by omega)]

theorem copy_array_eq_take_drop (a : List Nat) (k : Nat) (h1 : 1 ≤ k) (h2 : k ≤ a.length) :
    copy_array a k = a.take (k - 1) ++ a.drop k ++ [0] := by
  have hlen : (copy_array a k).length = a.length := copy_array_length a k
  have hrl : (a.take (k - 1) ++ a.drop k ++ [0]).length = a.length := by
    simp [List.length_take, List.length_drop]
    omega
  apply List.ext_getElem (by omega)
  intro i hi hi'
  have hgd : (copy_array a k).getD i 0 = (a.take (k - 1) ++ a.drop k ++ [0]).getD i 0 := by
    rw [copy_array_getD a k h1 h2 i]
    have htk : (a.take (k - 1)).length = k - 1 := by simp; omega
    by_cases hc : i < k - 1
    · rw [if_neg (by omega), if_neg (by omega),
        List.getD_append _ _ _ _ (by simp [htk]; omega),
        List.getD_append _ _ _ _ (by omega),
        List.getD_eq_getElem _ _ (by omega), List.getD_eq_getElem _ _ (by rwa [htk]),
        List.getElem_take]
    · by_cases hc2 : i + 1 < a.length
      · rw [if_pos (by omega)]
        rw [List.getD_append _ _ _ _ (by simp [htk, List.length_drop]; omega),
          List.getD_append_right _ _ _ _ (by omega)]
        rw [List.getD_eq_getElem _ _ (by omega),
          List.getD_eq_getElem _ _ (by simp [List.length_drop]; omega),
          List.getElem_drop]
        congr 1
        omega
      · rw [if_neg (by omega), if_pos (by omega)]
        rw [List.getD_append_right _ _ _ _ (by simp [htk, List.length_drop]; omega)]
        simp [htk, List.length_drop]
  rw [← List.getD_eq_getElem (copy_array a k) 0 hi,
    ← List.getD_eq_getElem (a.take (k - 1) ++ a.drop k ++ [0]) 0 hi']
  exact hgd

/-- Effect of `copy_array` on a working list split into a live prefix and a
zero pad: the `k`-th live entry is removed and a `0` joins the pad. -/
theorem copy_array_split (live pad : List Nat) (k : Nat)
    (h1 : 1 ≤ k) (h2 : k ≤ live.length) :
    copy_array (live ++ pad) k = (live.take (k - 1) ++ live.drop k) ++ (pad ++ [0]) := by
  rw [copy_array_eq_take_drop _ _ h1 (by simp; omega),
    List.take_append_of_le_length (by omega),
    List.drop_append_of_le_length (by omega)]
  simp [List.append_assoc]

/-! ## Decoding: permutation property and encode round-trip -/

theorem order_rep_row_perm : ∀ (gs live pad : List Nat), gs.length = live.length →
    (∀ j, j < gs.length → 1 ≤ gs.getD j 0 ∧ gs.getD j 0 ≤ live.length - j) →
    List.Perm (order_rep_row gs (live ++ pad)) live := by
  intro gs
  induction gs with
  | nil =>
    intro live pad hlen _
    rw [List.length_nil] at hlen
    rw [List.length_eq_zero.mp hlen.symm]
    exact List.Perm.nil
  | cons k gs ih =>
    intro live pad hlen hg
    have hk := hg 0 (by simp)
    rw [List.getD_cons_zero] at hk
    have hk1 : 1 ≤ k := hk.1
    have hk2 : k ≤ live.length := by have := hk.2; omega
    have hpick : (live ++ pad).getD (k - 1) 0 = live.getD (k - 1) 0 :=
      List.getD_append _ _ _ _ (by omega)
    rw [order_rep_row, hpick, copy_array_split live pad k hk1 hk2]
    have hlenc : gs.length + 1 = live.length := by simpa using hlen
    have hlive' : gs.length = (live.take (k - 1) ++ live.drop k).length := by
      simp [List.length_take, List.length_drop]
      omega
    have hperm := ih (live.take (k - 1) ++ live.drop k) (pad ++ [0]) hlive' ?_
    · have hdrop : live.getD (k - 1) 0 :: live.drop k = live.drop (k - 1) := by
        have hkk : k - 1 + 1 = k := by omega
        have hgec := List.getElem_cons_drop live (k - 1) (by omega)
        simp only [hkk] at hgec
        rw [List.getD_eq_getElem _ _ (by omega)]
        exact hgec
      have h1 : List.Perm (live.getD (k - 1) 0 :: (live.take (k - 1) ++ live.drop k))
          (live.take (k - 1) ++ live.getD (k - 1) 0 :: live.drop k) := List.perm_middle.symm
      have h2 : live.take (k - 1) ++ live.getD (k - 1) 0 :: live.drop k = live := by
        rw [hdrop, List.take_append_drop]
      exact (hperm.cons _).trans (h1.trans (List.Perm.of_eq h2))
    · intro j hj
      have hj' := hg (j + 1) (by simp; omega)
      rw [List.getD_cons_succ] at hj'
      refine ⟨hj'.1, ?_⟩
      have := hj'.2
      simp only [List.length_append, List.length_take, List.length_drop]
      omega

/-- The initial working list `order_list[j] = j + 1` is exactly the label
range `1..n`. -/
theorem init_order_list (n : Nat) :
    (List.range n).map (fun j => j + 1) = List.range' 1 n := by
  rw [List.range'_eq_map_range]
  exact List.map_congr_left (fun x _ => Nat.add_comm x 1)

theorem erase_eq_take_drop (x : Nat) : ∀ (l : List Nat), x ∈ l →
    l.erase x = l.take (l.indexOf x) ++ l.drop (l.indexOf x + 1) := by
  intro l
  induction l with
  | nil => intro h; cases h
  | cons a l ih =>
    intro hx
    by_cases hax : a = x
    · subst hax
      simp
    · have hxa : x ≠ a := fun h => hax h.symm
      have hxl : x ∈ l := by
        rcases List.mem_cons.mp hx with h | h
        · exact absurd h.symm hax
        · exact h
      rw [List.erase_cons_tail (by simp [hax]), List.indexOf_cons_ne l hax,
        List.take_succ_cons, List.drop_succ_cons, ih hxl]
      rfl

theorem encode_decode_aux : ∀ (P live pad : List Nat), List.Perm P live →
    order_rep_row (encode live P) (live ++ pad) = P := by
  intro P
  induction P with
  | nil => intro live pad _; rfl
  | cons x xs ih =>
    intro live pad h
    have hx : x ∈ live := h.subset (List.mem_cons_self x xs)
    have hidx : live.indexOf x < live.length := List.indexOf_lt_length.mpr hx
    rw [encode, order_rep_row,
      copy_array_split live pad _ (by omega) (by omega)]
    have hsimp : live.indexOf x + 1 - 1 = live.indexOf x := by omega
    rw [hsimp]
    have hpick : (live ++ pad).getD (live.indexOf x) 0 = x := by
      rw [List.getD_append _ _ _ _ hidx, List.getD_eq_getElem _ _ hidx]
      exact List.getElem_indexOf hidx
    rw [hpick, ← erase_eq_take_drop x live hx,
      ih (live.erase x) (pad ++ [0]) (List.cons_perm_iff_perm_erase.mp h).2]

/-- C2 (codec totality): for every instance size n ≥ 1 and every chromosome
whose gene at position j lies in [1, n−j], decoding the chromosome as
`order_representation` does on one row produces a permutation of the labels
1..n with no duplicates. -/
theorem decode_total_perm (n : Nat) (gene : List Nat) (h0 : 1 ≤ n)
    (hlen : gene.length = n)
    (hg : ∀ j, j < n → 1 ≤ gene.getD j 0 ∧ gene.getD j 0 ≤ n - j) :
    List.Perm (order_rep_row gene ((List.range n).map (fun j => j + 1)))
      (List.range' 1 n) ∧
    (order_rep_row gene ((List.range n).map (fun j => j + 1))).Nodup := by
  have hl : ((List.range n).map (fun j => j + 1)).length = n := by simp
  have hperm : List.Perm (order_rep_row gene ((List.range n).map (fun j => j + 1)))
      ((List.range n).map (fun j => j + 1)) := by
    have h := order_rep_row_perm gene ((List.range n).map (fun j => j + 1)) []
      (by rw [hl, hlen]) (by rw [hl, hlen]; exact hg)
    rwa [List.append_nil] at h
  have hperm2 := hperm.trans (List.Perm.of_eq (init_order_list n))
  refine ⟨hperm2, hperm2.symm.nodup ?_⟩
  exact List.nodup_range' 1 n

/-- Witness for C2 at n = 3, gene = [3,1,1] (decoding to [3,1,2]). -/
theorem decode_total_perm_witness :
    (1 ≤ 3 ∧ ([3, 1, 1] : List Nat).length = 3 ∧
      ∀ j, j < 3 → 1 ≤ ([3, 1, 1] : List Nat).getD j 0 ∧
        ([3, 1, 1] : List Nat).getD j 0 ≤ 3 - j) ∧
    (List.Perm (order_rep_row [3, 1, 1] ((List.range 3).map (fun j => j + 1)))
        (List.range' 1 3) ∧
      (order_rep_row [3, 1, 1] ((List.range 3).map (fun j => j + 1))).Nodup) :=
  ⟨⟨by decide, by decide, by decide⟩,
    decode_total_perm 3 [3, 1, 1] (by decide) (by decide) (by decide)⟩

/-- C9 (codec round-trip): for every permutation P of 1..n,
decode(encode(P)) = P, where `encode` is the spec's rank-then-remove inverse
of the order representation. -/
theorem encode_decode_roundtrip (n : Nat) (P : List Nat)
    (h : List.Perm P (List.range' 1 n)) :
    order_rep_row (encode ((List.range n).map (fun j => j + 1)) P)
      ((List.range n).map (fun j => j + 1)) = P := by
  have h2 : List.Perm P ((List.range n).map (fun j => j + 1)) := by
    rw [init_order_list]; exact h
  have h3 := encode_decode_aux P ((List.range n).map (fun j => j + 1)) [] h2
  rwa [List.append_nil] at h3

/-- Witness for C9 at n = 3, P = [2,3,1]. -/
theorem encode_decode_roundtrip_witness :
    List.Perm [2, 3, 1] (List.range' 1 3) ∧
    order_rep_row (encode ((List.range 3).map (fun j => j + 1)) [2, 3, 1])
      ((List.range 3).map (fun j => j + 1)) = [2, 3, 1] :=
  ⟨by decide, encode_decode_roundtrip 3 [2, 3, 1] (by decide)⟩

/-! ## Bounds-checked decoding (C7) -/

theorem copy_array_checked_some (a : List Nat) (k : Nat)
    (h1 : 1 ≤ k) (h2 : k < a.length) :
    copy_array_checked a k = some (copy_array a k) := by
  rw [copy_array_checked, if_pos ⟨h1, le_of_lt h2⟩, copy_array,
    if_pos ⟨h1, le_of_lt h2⟩]
  have hget : a.get? k = some (a.getD k 0) := by
    rw [List.get?_eq_getElem?, List.getElem?_eq_getElem h2,
      List.getD_eq_getElem _ _ h2]
  rw [hget]
  rfl

theorem order_rep_row_checked_some : ∀ (gs ol : List Nat),
    (∀ j, j < gs.length → 1 ≤ gs.getD j 0 ∧ gs.getD j 0 < ol.length) →
    order_rep_row_checked gs ol = some (order_rep_row gs ol) := by
  intro gs
  induction gs with
  | nil => intro ol _; rfl
  | cons k gs ih =>
    intro ol h
    have hk := h 0 (by simp)
    rw [List.getD_cons_zero] at hk
    have hget : ol.get? (k - 1) = some (ol.getD (k - 1) 0) := by
      rw [List.get?_eq_getElem?, List.getElem?_eq_getElem (by omega),
        List.getD_eq_getElem _ _ (by omega)]
    have hih : order_rep_row_checked gs (copy_array ol k) =
        some (order_rep_row gs (copy_array ol k)) := by
      apply ih
      intro j hj
      have hj' := h (j + 1) (by simp; omega)
      rw [List.getD_cons_succ] at hj'
      rw [copy_array_length]
      exact hj'
    rw [order_rep_row_checked, hget,
      copy_array_checked_some ol k hk.1 hk.2, order_rep_row]
    simp [hih]

/-- Counterexample to C7 as stated: the chromosome [1] is structurally valid
for n = 1 (its single gene lies in [1, 1]), yet bounds-checked decoding
fails: `copy_array`'s first shift-read accesses index 1 of the length-1
working list. -/
theorem decode_index_counterexample :
    (([1] : List Nat).length = 1 ∧
      ∀ j, j < 1 → 1 ≤ ([1] : List Nat).getD j 0 ∧
        ([1] : List Nat).getD j 0 ≤ 1 - j) ∧
    order_rep_row_checked [1] ((List.range 1).map (fun j => j + 1)) = none :=
  ⟨⟨by decide, by decide⟩, by decide⟩

/-- C7 as amended: for a structurally valid chromosome whose first gene is
moreover strictly below n, every access of the decoding — the read
`order_list[k-1]` and every read and write of `copy_array` — is in bounds,
so the checked decoder returns the total decoder's result.  (When
`gene[0] = n`, the permitted maximum, `copy_array`'s first shift-read
`a[j-1] = a[j]` touches index n, one past the end of the working list; its
value is immediately overwritten, but the access itself is out of range.) -/
theorem decode_checked_some (n : Nat) (gene : List Nat)
    (hlen : gene.length = n)
    (hg : ∀ j, j < n → 1 ≤ gene.getD j 0 ∧ gene.getD j 0 ≤ n - j)
    (h0 : 1 ≤ n → gene.getD 0 0 < n) :
    order_rep_row_checked gene ((List.range n).map (fun j => j + 1)) =
      some (order_rep_row gene ((List.range n).map (fun j => j + 1))) := by
  apply order_rep_row_checked_some
  intro j hj
  rw [hlen] at hj
  have hlen2 : ((List.range n).map (fun j => j + 1)).length = n := by simp
  rw [hlen2]
  rcases Nat.eq_zero_or_pos j with hj0 | hjpos
  · subst hj0
    exact ⟨(hg 0 hj).1, h0 (by omega)⟩
  · have hgj := hg j hj
    exact ⟨hgj.1, by omega⟩

/-- Witness for the amended C7 at n = 2, gene = [1,1]. -/
theorem decode_checked_some_witness :
    (([1, 1] : List Nat).length = 2 ∧
      (∀ j, j < 2 → 1 ≤ ([1, 1] : List Nat).getD j 0 ∧
        ([1, 1] : List Nat).getD j 0 ≤ 2 - j) ∧
      (1 ≤ 2 → ([1, 1] : List Nat).getD 0 0 < 2)) ∧
    order_rep_row_checked [1, 1] ((List.range 2).map (fun j => j + 1)) =
      some (order_rep_row [1, 1] ((List.range 2).map (fun j => j + 1))) :=
  ⟨⟨by decide, by decide, by decide⟩,
    decode_checked_some 2 [1, 1] (by decide) (by decide) (by decide)⟩

/-! ## Ranking selection: min, last-index scan, and the striking loop -/

theorem minLoop_le_init : ∀ (l : List Int) (m : Int), minLoop l m ≤ m := by
  intro l
  induction l with
  | nil => intro m; exact le_refl m
  | cons x l ih =>
    intro m
    have h1 : minLoop (x :: l) m = minLoop l (if m > x then x else m) := rfl
    rw [h1]
    calc minLoop l (if m > x then x else m) ≤ (if m > x then x else m) := ih _
      _ ≤ m := by split <;> omega

theorem minLoop_le_of_mem : ∀ (l : List Int) (m x : Int), x ∈ l → minLoop l m ≤ x := by
  intro l
  induction l with
  | nil => intro m x h; cases h
  | cons a l ih =>
    intro m x hx
    have h1 : minLoop (a :: l) m = minLoop l (if m > a then a else m) := rfl
    rw [h1]
    rcases List.mem_cons.mp hx with h | h
    · subst h
      calc minLoop l (if m > x then x else m) ≤ (if m > x then x else m) :=
            minLoop_le_init _ _
        _ ≤ x := by split <;> omega
    · exact ih _ x h

theorem minLoop_mem_or : ∀ (l : List Int) (m : Int),
    minLoop l m = m ∨ minLoop l m ∈ l := by
  intro l
  induction l with
  | nil => intro m; exact Or.inl rfl
  | cons a l ih =>
    intro m
    have h1 : minLoop (a :: l) m = minLoop l (if m > a then a else m) := rfl
    rw [h1]
    rcases ih (if m > a then a else m) with h | h
    · rw [h]
      split
      · exact Or.inr (List.mem_cons_self _ _)
      · exact Or.inl rfl
    · exact Or.inr (List.mem_cons_of_mem _ h)

theorem min_le_getD (a : List Int) (ha : a.length = POPULATION)
    (j : Nat) (hj : j < POPULATION) : Tsp.min a ≤ a.getD j 0 := by
  apply minLoop_le_of_mem
  rw [List.getD_eq_getElem _ _ (by rw [ha]; exact hj)]
  exact List.getElem_mem _

theorem min_mem (a : List Int) (ha : a.length = POPULATION) : Tsp.min a ∈ a := by
  rcases minLoop_mem_or a (a.getD (POPULATION - 1) 0) with h | h
  · rw [Tsp.min, h, List.getD_eq_getElem _ _ (by rw [ha]; decide)]
    exact List.getElem_mem _
  · exact h

theorem min_exists (a : List Int) (ha : a.length = POPULATION) :
    ∃ j, j < POPULATION ∧ a.getD j 0 = Tsp.min a := by
  obtain ⟨i, hi, hv⟩ := List.mem_iff_getElem.mp (min_mem a ha)
  exact ⟨i, by rw [ha] at hi; exact hi, by rw [List.getD_eq_getElem _ _ hi]; exact hv⟩

theorem idxScan_spec : ∀ (nn : Nat) (d : List Int) (m : Int),
    (∃ j, j < nn ∧ d.getD j 0 = m) →
    d.getD (idxScan d m nn) 0 = m ∧ idxScan d m nn < nn ∧
      ∀ j, idxScan d m nn < j → j < nn → d.getD j 0 ≠ m := by
  intro nn
  induction nn with
  | zero => intro d m h; obtain ⟨j, hj, _⟩ := h; omega
  | succ nn ih =>
    intro d m h
    have hstep : idxScan d m (nn + 1) =
        if d.getD nn 0 = m then nn else idxScan d m nn := by
      rw [idxScan, List.range_succ, List.foldl_append, List.foldl_cons, List.foldl_nil]
      rfl
    by_cases hm : d.getD nn 0 = m
    · rw [hstep, if_pos hm]
      exact ⟨hm, by omega, fun j hj1 hj2 => by omega⟩
    · rw [hstep, if_neg hm]
      obtain ⟨j, hj, hjv⟩ := h
      have hjn : j < nn := by
        rcases Nat.lt_succ_iff_lt_or_eq.mp hj with h' | h'
        · exact h'
        · exact absurd (h' ▸ hjv) hm
      obtain ⟨h1, h2, h3⟩ := ih d m ⟨j, hjn, hjv⟩
      refine ⟨h1, by omega, fun j' hj1' hj2' => ?_⟩
      rcases Nat.lt_succ_iff_lt_or_eq.mp hj2' with h' | h'
      · exact h3 j' hj1' h'
      · exact h' ▸ hm

/-- The indices whose working fitness entry has not been struck with the
sentinel 1000000. -/
def live (d : List Int) : List Nat :=
  (List.range POPULATION).filter (fun j => decide (d.getD j 0 < 1000000))

theorem filter_erase_of_nodup : ∀ (l : List Nat), l.Nodup →
    ∀ (p p' : Nat → Bool) (idx : Nat),
    p idx = true → p' idx = false → (∀ x, x ≠ idx → p' x = p x) →
    l.filter p' = (l.filter p).erase idx := by
  intro l
  induction l with
  | nil => intros; rfl
  | cons a l ih =>
    intro hnd p p' idx hp hp' hagree
    have hal : a ∉ l := (List.nodup_cons.mp hnd).1
    have hndl : l.Nodup := (List.nodup_cons.mp hnd).2
    by_cases ha : a = idx
    · subst ha
      rw [List.filter_cons, List.filter_cons, hp, hp']
      simp only [if_pos, if_neg, Bool.false_eq_true, if_false, if_true]
      rw [List.erase_cons_head]
      apply List.filter_congr
      intro x hx
      exact hagree x (fun hxa => hal (hxa ▸ hx))
    · have hpa : p' a = p a := hagree a ha
      rw [List.filter_cons, List.filter_cons, hpa]
      by_cases hcase : p a = true
      · rw [hcase]
        simp only [if_true]
        rw [List.erase_cons_tail (by simp [ha]), ih hndl p p' idx hp hp' hagree]
      · simp only [Bool.not_eq_true] at hcase
        rw [hcase]
        simp only [Bool.false_eq_true, if_false]
        exact ih hndl p p' idx hp hp' hagree

theorem selectIdx_spec : ∀ (fuel : Nat) (d : List Int),
    d.length = POPULATION →
    (∀ j, j < POPULATION → d.getD j 0 ≤ 1000000) →
    (live d).length = fuel →
    List.Perm (selectIdxLoop fuel d) (live d) ∧
    List.Sorted (· ≤ ·) ((selectIdxLoop fuel d).map (fun j => d.getD j 0)) := by
  intro fuel
  induction fuel with
  | zero =>
    intro d hlen hb hl
    have hnil : live d = [] := List.length_eq_zero.mp hl
    rw [selectIdxLoop, hnil]
    exact ⟨List.Perm.nil, List.sorted_nil⟩
  | succ fuel ih =>
    intro d hlen hb hl
    have hne : live d ≠ [] := by
      intro h; rw [h] at hl; simp at hl
    obtain ⟨j0, hj0⟩ := List.exists_mem_of_ne_nil _ hne
    have hj0r := List.mem_filter.mp hj0
    have hj0lt : j0 < POPULATION := List.mem_range.mp hj0r.1
    have hj0v : d.getD j0 0 < 1000000 := of_decide_eq_true hj0r.2
    have hmlt : Tsp.min d < 1000000 :=
      lt_of_le_of_lt (min_le_getD d hlen j0 hj0lt) hj0v
    obtain ⟨jm, hjm, hjmv⟩ := min_exists d hlen
    obtain ⟨hidxv, hidxlt, hmax⟩ :=
      idxScan_spec POPULATION d (Tsp.min d) ⟨jm, hjm, hjmv⟩
    have hidxlive : idxScan d (Tsp.min d) POPULATION ∈ live d :=
      List.mem_filter.mpr ⟨List.mem_range.mpr hidxlt,
        decide_eq_true (by rw [hidxv]; exact hmlt)⟩
    have hlen' : (d.set (idxScan d (Tsp.min d) POPULATION) 1000000).length = POPULATION := by
      rw [List.length_set, hlen]
    have hb' : ∀ j, j < POPULATION →
        (d.set (idxScan d (Tsp.min d) POPULATION) 1000000).getD j 0 ≤ 1000000 := by
      intro j hj
      by_cases hji : j = idxScan d (Tsp.min d) POPULATION
      · subst hji
        rw [getD_set_self d _ 1000000 0 (by rw [hlen]; exact hidxlt)]
      · rw [getD_set_ne _ _ _ _ _ hji]
        exact hb j hj
    have hlive' : live (d.set (idxScan d (Tsp.min d) POPULATION) 1000000) =
        (live d).erase (idxScan d (Tsp.min d) POPULATION) := by
      apply filter_erase_of_nodup _ (List.nodup_range _)
      · exact decide_eq_true (by rw [hidxv]; exact hmlt)
      · apply decide_eq_false
        rw [getD_set_self d _ 1000000 0 (by rw [hlen]; exact hidxlt)]
        omega
      · intro x hx
        have hset : (d.set (idxScan d (Tsp.min d) POPULATION) 1000000).getD x 0 = d.getD x 0 :=
          getD_set_ne _ _ _ _ _ hx
        rw [hset]
    have hlive'len : (live (d.set (idxScan d (Tsp.min d) POPULATION) 1000000)).length = fuel := by
      rw [hlive', List.length_erase_of_mem hidxlive, hl]
      omega
    obtain ⟨ihperm, ihsort⟩ := ih _ hlen' hb' hlive'len
    have hmemne : ∀ j ∈ selectIdxLoop fuel (d.set (idxScan d (Tsp.min d) POPULATION) 1000000),
        j ≠ idxScan d (Tsp.min d) POPULATION ∧ j < POPULATION := by
      intro j hj
      have hjl : j ∈ live (d.set (idxScan d (Tsp.min d) POPULATION) 1000000) :=
        ihperm.subset hj
      have hjr := List.mem_filter.mp hjl
      have hjlt : j < POPULATION := List.mem_range.mp hjr.1
      -- j lives in the struck array, so its entry is < 1000000, but the
      -- struck entry at idx is exactly 1000000
      have hjv : (d.set (idxScan d (Tsp.min d) POPULATION) 1000000).getD j 0 < 1000000 :=
        of_decide_eq_true hjr.2
      refine ⟨?_, hjlt⟩
      intro hji
      rw [hji, getD_set_self d _ 1000000 0 (by rw [hlen]; exact hidxlt)] at hjv
      omega
    constructor
    · rw [selectIdxLoop]
      refine (ihperm.cons _).trans ?_
      rw [hlive']
      exact (List.perm_cons_erase hidxlive).symm
    · rw [selectIdxLoop]
      simp only [List.map_cons]
      rw [List.sorted_cons]
      constructor
      · intro b hb'
        obtain ⟨j, hjmem, hjv⟩ := List.mem_map.mp hb'
        obtain ⟨hjne, hjlt⟩ := hmemne j hjmem
        rw [← hjv, hidxv]
        exact min_le_getD d hlen j hjlt
      · have hcongr : (selectIdxLoop fuel (d.set (idxScan d (Tsp.min d) POPULATION) 1000000)).map
            (fun j => d.getD j 0) =
            (selectIdxLoop fuel (d.set (idxScan d (Tsp.min d) POPULATION) 1000000)).map
            (fun j => (d.set (idxScan d (Tsp.min d) POPULATION) 1000000).getD j 0) := by
          apply List.map_congr_left
          intro j hj
          exact (getD_set_ne _ _ _ _ _ (hmemne j hj).1).symm
        rw [hcongr]
        exact ihsort

theorem live_strike (d : List Int) (hlen : d.length = POPULATION) (idx : Nat)
    (hidxlt : idx < POPULATION) (hv : d.getD idx 0 < 1000000) :
    live (d.set idx 1000000) = (live d).erase idx := by
  apply filter_erase_of_nodup _ (List.nodup_range _)
  · exact decide_eq_true hv
  · apply decide_eq_false
    rw [getD_set_self d idx 1000000 0 (by rw [hlen]; exact hidxlt)]
    omega
  · intro x hx
    have hset : (d.set idx 1000000).getD x 0 = d.getD x 0 := getD_set_ne _ _ _ _ _ hx
    rw [hset]

/-- Among equal working-fitness entries the scan keeps the LAST index, so a
later index is always selected (and struck) strictly before an earlier index
holding the same value. -/
theorem selectIdx_tie : ∀ (fuel : Nat) (d : List Int) (j1 j2 : Nat),
    d.length = POPULATION →
    (∀ j, j < POPULATION → d.getD j 0 ≤ 1000000) →
    (live d).length = fuel →
    j1 < j2 → j2 < POPULATION →
    d.getD j1 0 = d.getD j2 0 → d.getD j1 0 < 1000000 →
    (selectIdxLoop fuel d).indexOf j2 < (selectIdxLoop fuel d).indexOf j1 := by
  intro fuel
  induction fuel with
  | zero =>
    intro d j1 j2 hlen hb hl hj12 hj2 heq hlt
    exfalso
    have hj1live : j1 ∈ live d :=
      List.mem_filter.mpr ⟨List.mem_range.mpr (by omega), decide_eq_true hlt⟩
    rw [List.length_eq_zero.mp hl] at hj1live
    cases hj1live
  | succ fuel ih =>
    intro d j1 j2 hlen hb hl hj12 hj2 heq hlt
    have hmlt : Tsp.min d < 1000000 :=
      lt_of_le_of_lt (min_le_getD d hlen j1 (by omega)) hlt
    obtain ⟨jm, hjm, hjmv⟩ := min_exists d hlen
    obtain ⟨hidxv, hidxlt, hmax⟩ := idxScan_spec POPULATION d (Tsp.min d) ⟨jm, hjm, hjmv⟩
    have hij1 : idxScan d (Tsp.min d) POPULATION ≠ j1 := by
      intro hij1
      have hv1 : d.getD j2 0 = Tsp.min d := by
        rw [← heq, ← hij1]
        exact hidxv
      exact (hmax j2 (by omega) hj2) hv1
    rw [selectIdxLoop]
    by_cases hij2 : idxScan d (Tsp.min d) POPULATION = j2
    · rw [hij2]
      have hne : j2 ≠ j1 := by omega
      rw [List.indexOf_cons_self, List.indexOf_cons_ne _ hne]
      omega
    · have hlen' : (d.set (idxScan d (Tsp.min d) POPULATION) 1000000).length = POPULATION := by
        rw [List.length_set, hlen]
      have hb' : ∀ j, j < POPULATION →
          (d.set (idxScan d (Tsp.min d) POPULATION) 1000000).getD j 0 ≤ 1000000 := by
        intro j hj
        by_cases hji : j = idxScan d (Tsp.min d) POPULATION
        · subst hji
          rw [getD_set_self d _ 1000000 0 (by rw [hlen]; exact hidxlt)]
        · rw [getD_set_ne _ _ _ _ _ hji]
          exact hb j hj
      have hlive' := live_strike d hlen _ hidxlt (by rw [hidxv]; exact hmlt)
      have hidxlive : idxScan d (Tsp.min d) POPULATION ∈ live d :=
        List.mem_filter.mpr ⟨List.mem_range.mpr hidxlt,
          decide_eq_true (by rw [hidxv]; exact hmlt)⟩
      have hlive'len :
          (live (d.set (idxScan d (Tsp.min d) POPULATION) 1000000)).length = fuel := by
        rw [hlive', List.length_erase_of_mem hidxlive, hl]
        omega
      have hne1 : j1 ≠ idxScan d (Tsp.min d) POPULATION := fun h => hij1 h.symm
      have hne2 : j2 ≠ idxScan d (Tsp.min d) POPULATION := fun h => hij2 h.symm
      have heq' : (d.set (idxScan d (Tsp.min d) POPULATION) 1000000).getD j1 0 =
          (d.set (idxScan d (Tsp.min d) POPULATION) 1000000).getD j2 0 := by
        rw [getD_set_ne _ _ _ _ _ hne1, getD_set_ne _ _ _ _ _ hne2]
        exact heq
      have hlt' : (d.set (idxScan d (Tsp.min d) POPULATION) 1000000).getD j1 0 < 1000000 := by
        rw [getD_set_ne _ _ _ _ _ hne1]
        exact hlt
      have ihres := ih _ j1 j2 hlen' hb' hlive'len hj12 hj2 heq' hlt'
      rw [List.indexOf_cons_ne _ hij1, List.indexOf_cons_ne _ hij2]
      omega

theorem zip_eq_map_range (b : List (List Nat)) (a : List Int)
    (hb : b.length = POPULATION) (ha : a.length = POPULATION) :
    (List.range POPULATION).map (fun j => (b.getD j [], a.getD j 0)) = b.zip a := by
  apply List.ext_getElem
  · simp [List.length_zip, hb, ha]
  · intro i h1 h2
    have hi : i < POPULATION := by simpa using h1
    simp only [List.getElem_map, List.getElem_range, List.getElem_zip]
    rw [List.getD_eq_getElem b [] (by rw [hb]; exact hi),
      List.getD_eq_getElem a 0 (by rw [ha]; exact hi)]

/-- Counterexample to C4 as stated: with the fitness vector
`[1000000, 0, 0, ..., 0]` (a value at the strike sentinel 1000000) the
output of ranking_selection is NOT a permutation of the input rows: row
`[19]` is emitted twice and row `[0]` never. -/
theorem ranking_not_permutation_counterexample :
    ¬ List.Perm
      (ranking_selection ((1000000 : Int) :: List.replicate 19 0)
        ((List.range 20).map (fun i => [i])))
      ((List.range 20).map (fun i => [i])) := by decide

/-- C4 as amended: PROVIDED every fitness value is strictly below the
in-band strike constant 1000000, ranking_selection emits the rows of `b`
reordered by the index trace, that trace is a permutation of all
`POPULATION` positions (no row dropped or duplicated), the associated
fitness values are non-decreasing by output position, and the multiset of
(chromosome, fitness) pairs is preserved. -/
theorem ranking_selection_sorted_perm (a : List Int) (b : List (List Nat))
    (ha : a.length = POPULATION) (hb : b.length = POPULATION)
    (hlt : ∀ j, j < POPULATION → a.getD j 0 < 1000000) :
    List.Perm (selectIdxLoop POPULATION a) (List.range POPULATION) ∧
    ranking_selection a b = (selectIdxLoop POPULATION a).map (fun j => b.getD j []) ∧
    List.Sorted (· ≤ ·) ((selectIdxLoop POPULATION a).map (fun j => a.getD j 0)) ∧
    List.Perm ((selectIdxLoop POPULATION a).map (fun j => (b.getD j [], a.getD j 0)))
      (b.zip a) := by
  have hlive : live a = List.range POPULATION := by
    rw [live]
    apply List.filter_eq_self.mpr
    intro j hj
    exact decide_eq_true (hlt j (List.mem_range.mp hj))
  have hble : ∀ j, j < POPULATION → a.getD j 0 ≤ 1000000 :=
    fun j hj => le_of_lt (hlt j hj)
  obtain ⟨hperm, hsort⟩ := selectIdx_spec POPULATION a ha hble
    (by rw [hlive]; exact List.length_range POPULATION)
  rw [hlive] at hperm
  refine ⟨hperm, rfl, hsort, ?_⟩
  have hmap := hperm.map (fun j => (b.getD j [], a.getD j 0))
  rw [zip_eq_map_range b a hb ha] at hmap
  exact hmap

/-- Witness for the amended C4 on the fitness vector 0,1,...,19 with rows
[0],[1],...,[19]. -/
theorem ranking_selection_sorted_perm_witness :
    (((List.range 20).map (fun i => (i : Int))).length = POPULATION ∧
      ((List.range 20).map (fun i => [i])).length = POPULATION ∧
      ∀ j, j < POPULATION → ((List.range 20).map (fun i => (i : Int))).getD j 0 < 1000000) ∧
    (List.Perm (selectIdxLoop POPULATION ((List.range 20).map (fun i => (i : Int))))
        (List.range POPULATION) ∧
      ranking_selection ((List.range 20).map (fun i => (i : Int)))
          ((List.range 20).map (fun i => [i])) =
        (selectIdxLoop POPULATION ((List.range 20).map (fun i => (i : Int)))).map
          (fun j => ((List.range 20).map (fun i => [i])).getD j []) ∧
      List.Sorted (· ≤ ·)
        ((selectIdxLoop POPULATION ((List.range 20).map (fun i => (i : Int)))).map
          (fun j => ((List.range 20).map (fun i => (i : Int))).getD j 0)) ∧
      List.Perm
        ((selectIdxLoop POPULATION ((List.range 20).map (fun i => (i : Int)))).map
          (fun j => (((List.range 20).map (fun i => [i])).getD j [],
            ((List.range 20).map (fun i => (i : Int))).getD j 0)))
        (((List.range 20).map (fun i => [i])).zip
          ((List.range 20).map (fun i => (i : Int))))) :=
  ⟨⟨by decide, by decide, by decide⟩,
    ranking_selection_sorted_perm ((List.range 20).map (fun i => (i : Int)))
      ((List.range 20).map (fun i => [i])) (by decide) (by decide) (by decide)⟩

/-- Counterexample to C6 as stated: with all twenty fitness values equal
(to 5) and pairwise-distinct rows [0],...,[19], the individual at input
index 0 appears at output index 19 and the one at input index 19 at output
index 0 — ties are broken by LARGER input index first, not smaller. -/
theorem ranking_tie_counterexample :
    (∀ j, j < POPULATION → (List.replicate 20 (5 : Int)).getD j 0 = 5) ∧
    (ranking_selection (List.replicate 20 (5 : Int))
        ((List.range 20).map (fun i => [i]))).getD 0 [] = [19] ∧
    (ranking_selection (List.replicate 20 (5 : Int))
        ((List.range 20).map (fun i => [i]))).getD 19 [] = [0] :=
  ⟨by decide, by decide, by decide⟩

/-- C6 as amended: given fitness values strictly below the strike constant
1000000, ranking_selection is the deterministic function mapping row lookup
over the selection trace, ordering by ascending fitness with ties broken by
DESCENDING original position: of two input individuals with equal fitness,
the one at the LARGER input index appears at the smaller output index. -/
theorem ranking_tie_break_desc (a : List Int) (b : List (List Nat)) (j1 j2 : Nat)
    (ha : a.length = POPULATION)
    (hlt : ∀ j, j < POPULATION → a.getD j 0 < 1000000)
    (hj12 : j1 < j2) (hj2 : j2 < POPULATION)
    (heq : a.getD j1 0 = a.getD j2 0) :
    (selectIdxLoop POPULATION a).indexOf j2 < (selectIdxLoop POPULATION a).indexOf j1 ∧
    ranking_selection a b = (selectIdxLoop POPULATION a).map (fun j => b.getD j []) := by
  have hlive : live a = List.range POPULATION := by
    rw [live]
    apply List.filter_eq_self.mpr
    intro j hj
    exact decide_eq_true (hlt j (List.mem_range.mp hj))
  refine ⟨?_, rfl⟩
  exact selectIdx_tie POPULATION a j1 j2 ha (fun j hj => le_of_lt (hlt j hj))
    (by rw [hlive]; exact List.length_range POPULATION) hj12 hj2 heq (hlt j1 (by omega))

/-- Witness for the amended C6: all-equal fitness vector, j1 = 0, j2 = 1. -/
theorem ranking_tie_break_desc_witness :
    ((List.replicate 20 (5 : Int)).length = POPULATION ∧
      (∀ j, j < POPULATION → (List.replicate 20 (5 : Int)).getD j 0 < 1000000) ∧
      0 < 1 ∧ 1 < POPULATION ∧
      (List.replicate 20 (5 : Int)).getD 0 0 = (List.replicate 20 (5 : Int)).getD 1 0) ∧
    ((selectIdxLoop POPULATION (List.replicate 20 (5 : Int))).indexOf 1 <
        (selectIdxLoop POPULATION (List.replicate 20 (5 : Int))).indexOf 0 ∧
      ranking_selection (List.replicate 20 (5 : Int)) ((List.range 20).map (fun i => [i])) =
        (selectIdxLoop POPULATION (List.replicate 20 (5 : Int))).map
          (fun j => ((List.range 20).map (fun i => [i])).getD j [])) :=
  ⟨⟨by decide, by decide, by decide, by decide, by decide⟩,
    ranking_tie_break_desc (List.replicate 20 (5 : Int)) ((List.range 20).map (fun i => [i]))
      0 1 (by decide) (by decide) (by decide) (by decide) (by decide)⟩

/-! ## Two-point crossover: band characterization -/

theorem cross_child_getD (n p : Nat) (x y : List Nat) (j : Nat) (hj : j < n) :
    (cross_child n p x y).getD j 0 =
      if j < p / 2 + 1 then x.getD j 0
      else if j < p + p / 2 + 1 then y.getD j 0
      else x.getD j 0 := by
  rw [cross_child, List.getD_eq_getElem _ _ (by simpa using hj)]
  simp only [List.getElem_map, List.getElem_range]

theorem crossRows_rows (n p : Nat) : ∀ (q : Nat) (l : List (List Nat)),
    2 * q + 1 < l.length →
    (crossRows n p l).getD (2 * q) [] =
      cross_child n p (l.getD (2 * q) []) (l.getD (2 * q + 1) []) ∧
    (crossRows n p l).getD (2 * q + 1) [] =
      cross_child n p (l.getD (2 * q + 1) []) (l.getD (2 * q) []) := by
  intro q
  induction q with
  | zero =>
    intro l h
    rcases l with _ | ⟨x, _ | ⟨y, rest⟩⟩
    · simp at h
    · simp at h
    · exact ⟨rfl, rfl⟩
  | succ q ih =>
    intro l h
    rcases l with _ | ⟨x, _ | ⟨y, rest⟩⟩
    · simp at h
    · simp at h
    · have h' : 2 * q + 1 < rest.length := by
        simp only [List.length_cons] at h
        omega
      have hrest := ih rest h'
      have hc : crossRows n p (x :: y :: rest) =
          cross_child n p x y :: cross_child n p y x :: crossRows n p rest := rfl
      have e1 : 2 * (q + 1) = 2 * q + 1 + 1 := by omega
      rw [hc, e1]
      simp only [List.getD_cons_succ]
      exact hrest

/-- C5 (crossover band symmetry): for every chromosome length n and every
adjacent pair (i, i+1) with even i, with cut point p = cutPoint n (which is
ceil(n/2)−1 for odd n and n/2−1 for even n), the two children agree with
their own parent on the outer bands [0, p/2] and (p + p/2, n), and exchange
the parents' genes on the middle band (p/2, p + p/2]. -/
theorem crossover_band_symmetry (n : Nat) (b : List (List Nat)) (i j : Nat)
    (hi : i % 2 = 0) (hi1 : i + 1 < b.length) (hj : j < n) :
    ((j ≤ cutPoint n / 2 ∨ cutPoint n + cutPoint n / 2 < j) →
      ((tow_point_crossover n b).getD i []).getD j 0 = (b.getD i []).getD j 0 ∧
      ((tow_point_crossover n b).getD (i + 1) []).getD j 0 =
        (b.getD (i + 1) []).getD j 0) ∧
    (cutPoint n / 2 < j → j ≤ cutPoint n + cutPoint n / 2 →
      ((tow_point_crossover n b).getD i []).getD j 0 = (b.getD (i + 1) []).getD j 0 ∧
      ((tow_point_crossover n b).getD (i + 1) []).getD j 0 = (b.getD i []).getD j 0) := by
  have hq : i = 2 * (i / 2) := by omega
  obtain ⟨h1, h2⟩ := crossRows_rows n (cutPoint n) (i / 2) b (by omega)
  rw [← hq] at h1 h2
  rw [tow_point_crossover, h1, h2]
  constructor
  · intro hband
    rw [cross_child_getD n (cutPoint n) _ _ j hj, cross_child_getD n (cutPoint n) _ _ j hj]
    rcases hband with h | h
    · rw [if_pos (by omega), if_pos (by omega)]
      exact ⟨rfl, rfl⟩
    · rw [if_neg (by omega), if_neg (by omega), if_neg (by omega), if_neg (by omega)]
      exact ⟨rfl, rfl⟩
  · intro hb1 hb2
    rw [cross_child_getD n (cutPoint n) _ _ j hj, cross_child_getD n (cutPoint n) _ _ j hj]
    rw [if_neg (by omega), if_pos (by omega), if_neg (by omega), if_pos (by omega)]
    exact ⟨rfl, rfl⟩

/-- Witness for C5 at n = 5, two explicit parents, pair (0,1), middle-band
position j = 2 (p = 2, bands [0,1], (1,3], (3,5)). -/
theorem crossover_band_symmetry_witness :
    (0 % 2 = 0 ∧ 0 + 1 < ([[1, 2, 3, 4, 5], [5, 4, 3, 2, 1]] : List (List Nat)).length ∧
      2 < 5) ∧
    (((tow_point_crossover 5 [[1, 2, 3, 4, 5], [5, 4, 3, 2, 1]]).getD 0 []).getD 2 0 =
        (([[1, 2, 3, 4, 5], [5, 4, 3, 2, 1]] : List (List Nat)).getD (0 + 1) []).getD 2 0 ∧
      ((tow_point_crossover 5 [[1, 2, 3, 4, 5], [5, 4, 3, 2, 1]]).getD (0 + 1) []).getD 2 0 =
        (([[1, 2, 3, 4, 5], [5, 4, 3, 2, 1]] : List (List Nat)).getD 0 []).getD 2 0) :=
  ⟨⟨rfl, by decide, by decide⟩,
    (crossover_band_symmetry 5 [[1, 2, 3, 4, 5], [5, 4, 3, 2, 1]] 0 2 rfl
      (by decide) (by decide)).2 (by decide) (by decide)⟩

/-! ## Mutation: the out-of-range marker write -/

/-- C10: in mutation's tail regime (r ≤ POPULATION/2) the marker write
targets column mut_point n + 10 = ceil(n/2) + 10; whenever that is ≥ n the
write lies outside the chromosome's index range [0, n), so the checked
mutation hits its out-of-range branch; for n ≤ 10 the preceding overwrite
loop is empty, so the marker write is the only access attempted; and
ceil(m/2) + 10 ≥ m holds for every even m ≤ 20. -/
theorem mutation_tail_marker_oob (n r : Nat) (pop : List (List Nat))
    (h1 : 1 ≤ r) (h2 : r ≤ POPULATION / 2) (h3 : n ≤ mut_point n + 10) :
    mutation_checked n r pop = none ∧
    (n ≤ 10 → mutation_writes n r = [(mut_point n + 10, 2)]) ∧
    (∀ m : Nat, m % 2 = 0 → m ≤ 20 → m ≤ mut_point m + 10) := by
  have hpop : POPULATION / 2 = 10 := by decide
  have hreg : ¬ r > POPULATION / 2 := by omega
  have hw : mutation_writes n r =
      (List.range' (mut_point n) (n - 10 - mut_point n)).map (fun i => (i, 1)) ++
        [(mut_point n + 10, 2)] := by
    rw [mutation_writes, if_neg hreg]
  refine ⟨?_, ?_, ?_⟩
  · have hall : (((List.range' (mut_point n) (n - 10 - mut_point n)).map (fun i => (i, 1)) ++
        [(mut_point n + 10, 2)]).all (fun w => decide (w.1 < n))) = false := by
      simp only [List.all_append, List.all_cons, List.all_nil]
      rw [decide_eq_false (by omega : ¬ (mut_point n + 10 < n))]
      simp
    have hcond : ¬ ((((List.range' (mut_point n) (n - 10 - mut_point n)).map
        (fun i => (i, 1)) ++ [(mut_point n + 10, 2)]).all
        (fun w => decide (w.1 < n))) = true) := by
      rw [hall]
      simp
    rw [mutation_checked, hw, if_neg hcond]
  · intro hn
    rw [hw]
    have hz : n - 10 - mut_point n = 0 := by omega
    rw [hz]
    rfl
  · intro m hm hm20
    rw [mut_point, if_pos hm]
    omega

/-- Witness for C10 at n = 12 (even, ≤ 20), r = 5. -/
theorem mutation_tail_marker_oob_witness :
    (1 ≤ 5 ∧ 5 ≤ POPULATION / 2 ∧ 12 ≤ mut_point 12 + 10) ∧
    (mutation_checked 12 5 [] = none ∧
      (12 ≤ 10 → mutation_writes 12 5 = [(mut_point 12 + 10, 2)]) ∧
      (∀ m : Nat, m % 2 = 0 → m ≤ 20 → m ≤ mut_point m + 10)) :=
  ⟨⟨by decide, by decide, by decide⟩,
    mutation_tail_marker_oob 12 5 [] (by decide) (by decide) (by decide)⟩

/-- C3 evidence: at n = 10 with mutation triggered on individual r = 1
(tail regime), the only write mutation attempts is the marker 2 at gene
position 15 of a length-10 chromosome — outside every gene's index range —
so the checked mutation fails on the all-ones (identity) population. -/
theorem mutation_range_violation :
    mutation_writes 10 1 = [(15, 2)] ∧
    mutation_checked 10 1 (List.replicate 20 (List.replicate 10 1)) = none :=
  ⟨by decide, by decide⟩

/-! ## The generational loop -/

/-- The fuel made explicit in `gaGo` is irrelevant once it covers the time
budget: for a strictly monotone time source, any two sufficient budgets give
the same result — the while-loop always exits by its own guard. -/
theorem gaGo_fuel_irrel (n : Nat) (D : Int → Int → Int) (rng : Nat → Nat)
    (t : Nat → Nat) (timelim : Nat) (ht : StrictMono t) :
    ∀ (f1 f2 k : Nat) (s : GAState),
    timelim ≤ t k + f1 → timelim ≤ t k + f2 →
    gaGo n D rng t timelim f1 k s = gaGo n D rng t timelim f2 k s := by
  intro f1
  induction f1 with
  | zero =>
    intro f2 k s h1 h2
    cases f2 with
    | zero => rfl
    | succ f2 => rw [gaGo, gaGo, if_neg (by omega)]
  | succ f1 ih =>
    intro f2 k s h1 h2
    cases f2 with
    | zero => rw [gaGo, gaGo, if_neg (by omega)]
    | succ f2 =>
      rw [gaGo, gaGo]
      by_cases hg : t k < timelim
      · rw [if_pos hg, if_pos hg]
        have hstep : t k < t (k + 1) := ht (by omega)
        exact ih f2 (k + 1) (genStep n D rng s) (by omega) (by omega)
      · rw [if_neg hg, if_neg hg]

/-- Distance oracle of the C1 scenario: the four directed edges of the cycle
0→1→2→3→0 cost 1, every other pair costs 100. -/
def exD : Int → Int → Int := fun a b =>
  if (a = 0 ∧ b = 1) ∨ (a = 1 ∧ b = 2) ∨ (a = 2 ∧ b = 3) ∨ (a = 3 ∧ b = 0) then 1
  else 100

/-- Random stream of the C1 scenario (n = 4): the first 80 draws make every
`create_matrix` row decode from chromosome [2,2,1,1]; the draws from
position 80 on give r1 = 0, r2 = 1 each generation (no reinjection, no
mutation). -/
def exRng : Nat → Nat := fun i =>
  if i < 80 then (if i % 4 < 2 then 1 else 0)
  else (if i % 2 = 1 then 1 else 0)

set_option maxRecDepth 8000 in
/-- C1 evidence: a two-generation run (time source k, limit 2) whose first
generation contains the identity chromosome decoding to the feasible route
[0,1,2,3] of cost 4, yet the program emits the route [1,2,0,3] of cost 301:
`bestsol` is written only once, after the loop, from the final `gene_tmp`'s
first row (tsp.c:607-611), and no comparison against earlier generations
ever happens, so the emitted route is strictly worse than a feasible route
seen in generation 1. -/
theorem elitism_missing_regression :
    genetic_algorithm 4 exD exRng (fun k => k) 2 (List.replicate 20 [1, 1, 1, 1]) =
      [1, 2, 0, 3] ∧
    compute_cost exD 4 [1, 2, 0, 3] = 301 ∧
    (order_representation 4 ((create_matrix 4 exRng).set 0 (List.replicate 4 1))).getD 0 [] =
      [1, 2, 3, 4] ∧
    compute_cost exD 4 [0, 1, 2, 3] = 4 ∧
    is_feasible 4 4 [0, 1, 2, 3] = true ∧
    StrictMono (fun k : Nat => k) :=
  ⟨by decide, by decide, by decide, by decide, by decide, fun _ _ h => h⟩

/-- C8 evidence: with time limit 0 the loop body never runs, and the program
emits the decode of the UNINITIALIZED `gene_tmp` buffer (modeled as an
arbitrary initial parameter): with garbage first row [5,5] at n = 2 the
emitted route is [-1,-1], which `is_feasible` rejects — the identity
initialisation of `bestsol` (tsp.c:581-583) is unconditionally overwritten,
so no feasible fallback exists. -/
theorem timelim_zero_no_fallback :
    genetic_algorithm 2 (fun _ _ => 0) (fun _ => 0) (fun k => k) 0
        ([5, 5] :: List.replicate 19 [1, 1]) = [-1, -1] ∧
    is_feasible 2 2 [-1, -1] = false ∧
    StrictMono (fun k : Nat => k) :=
  ⟨by decide, by decide, fun _ _ h => h⟩

end Tsp
